import Mathlib

/-!
Shallow embedding of the sam-to-bam converter (`src/main.rs`) and proofs about
its encoders.  Strings are modelled as `List Char`; Rust `str::as_bytes` and
`str::len` are modelled through an explicit UTF-8 encoder; machine integers are
`Nat`/`Int` with explicit `% 2^w` where wrapping matters; the Rust panic on an
out-of-bounds index is modelled by `Option`.
-/

namespace SamToBam

/-- UTF-8 encoding of a single character, modelling how a Rust `char` is laid
out inside a `str`. -/
def utf8Bytes (c : Char) : List Nat :=
  let n := c.toNat
  if n < 128 then [n]
  else if n < 2048 then [192 ||| (n >>> 6), 128 ||| (n &&& 63)]
  else if n < 65536 then
    [224 ||| (n >>> 12), 128 ||| ((n >>> 6) &&& 63), 128 ||| (n &&& 63)]
  else
    [240 ||| (n >>> 18), 128 ||| ((n >>> 12) &&& 63),
     128 ||| ((n >>> 6) &&& 63), 128 ||| (n &&& 63)]

/-- Byte sequence of a string (Rust `str::as_bytes`); Rust `str::len` is its
length. -/
def strBytes (s : List Char) : List Nat := (s.map utf8Bytes).flatten

/-- Little-endian bytes of a 32-bit value (`u32::to_le_bytes`). -/
def le32 (u : Nat) : List Nat := [u % 256, u / 256 % 256, u / 65536 % 256, u / 16777216 % 256]

/-- Little-endian bytes of a 16-bit value (`u16::to_le_bytes`). -/
def le16 (u : Nat) : List Nat := [u % 256, u / 256 % 256]

/-- Two's-complement little-endian bytes of an `i32` value. -/
def le32i (i : Int) : List Nat := le32 (i % 4294967296).toNat

/-- Rust `char::is_ascii_digit`. -/
def isAsciiDigit (c : Char) : Bool := 48 ≤ c.toNat && c.toNat ≤ 57

/-- Rust `char::is_ascii_alphabetic`. -/
def isAsciiAlpha (c : Char) : Bool :=
  (65 ≤ c.toNat && c.toNat ≤ 90) || (97 ≤ c.toNat && c.toNat ≤ 122)

/-- Rust `char::to_ascii_uppercase`. -/
def toAsciiUpper (c : Char) : Char :=
  if 97 ≤ c.toNat && c.toNat ≤ 122 then Char.ofNat (c.toNat - 32) else c

/-- Decimal value of a digit string. -/
def digitsVal (cs : List Char) : Nat := cs.foldl (fun a c => a * 10 + (c.toNat - 48)) 0

/-- Parse a nonempty all-digit string; helper for the Rust integer `FromStr`
models. -/
def parseNatDigits (cs : List Char) : Option Nat :=
  if cs ≠ [] ∧ cs.all isAsciiDigit then some (digitsVal cs) else none

/-- Strip one leading `+` sign (Rust unsigned `FromStr`). -/
def stripPlus : List Char → List Char
  | [] => []
  | c :: r => if c = '+' then r else c :: r

/-- Rust `str::parse::<uN>()`: optional leading `+`, nonempty digits, bound
check. -/
def parseUnsigned (bound : Nat) (cs : List Char) : Option Nat :=
  match parseNatDigits (stripPlus cs) with
  | some v => if v < bound then some v else none
  | none => none

/-- Rust `str::parse::<u32>()`. -/
def parseU32 (cs : List Char) : Option Nat := parseUnsigned 4294967296 cs

/-- Rust `str::parse::<u16>()`. -/
def parseU16 (cs : List Char) : Option Nat := parseUnsigned 65536 cs

/-- Rust `str::parse::<u8>()`. -/
def parseU8 (cs : List Char) : Option Nat := parseUnsigned 256 cs

/-- Rust `str::parse::<i32>()`: optional sign, nonempty digits, i32 range
check. -/
def parseI32 (cs : List Char) : Option Int :=
  match cs with
  | '-' :: r =>
    match parseNatDigits r with
    | some v => if v ≤ 2147483648 then some (-(v : Int)) else none
    | none => none
  | '+' :: r =>
    match parseNatDigits r with
    | some v => if v < 2147483648 then some (v : Int) else none
    | none => none
  | _ =>
    match parseNatDigits cs with
    | some v => if v < 2147483648 then some (v : Int) else none
    | none => none

/-- Loop of Rust `str::split(sep)`, with an accumulator so it reduces in the
kernel. -/
def splitOnCharAux (sep : Char) (cur : List Char) : List Char → List (List Char)
  | [] => [cur.reverse]
  | c :: cs =>
    if c = sep then cur.reverse :: splitOnCharAux sep [] cs
    else splitOnCharAux sep (c :: cur) cs

/-- Rust `str::split(sep).collect()`. -/
def splitOnChar (sep : Char) (s : List Char) : List (List Char) := splitOnCharAux sep [] s

/-- Split at the first occurrence of `sep`, used to model `str::splitn`. -/
def splitOnce (sep : Char) : List Char → Option (List Char × List Char)
  | [] => none
  | c :: cs =>
    if c = sep then some ([], cs)
    else (splitOnce sep cs).map (fun p => (c :: p.1, p.2))

/-- Rust `str::splitn(3, sep).collect()`. -/
def splitn3 (sep : Char) (s : List Char) : List (List Char) :=
  match splitOnce sep s with
  | none => [s]
  | some (a, r) =>
    match splitOnce sep r with
    | none => [a, r]
    | some (b, r2) => [a, b, r2]

/-- Op-code table of `encode_cigar`. -/
def cigarOpCode (c : Char) : Nat :=
  match c with
  | 'M' => 0 | 'I' => 1 | 'D' => 2 | 'N' => 3 | 'S' => 4
  | 'H' => 5 | 'P' => 6 | '=' => 7 | 'X' => 8 | _ => 15

/-- Loop of `encode_cigar`: digits accumulate into `num`; each non-digit emits
one little-endian 32-bit word `(len << 4) | op_code` (u32 wrap-around made
explicit) and resets the accumulator. -/
def encodeCigarAux (num : List Char) : List Char → List Nat
  | [] => []
  | c :: cs =>
    if isAsciiDigit c then encodeCigarAux (num ++ [c]) cs
    else
      let len := (parseU32 num).getD 0
      le32 (((len <<< 4) % 4294967296) ||| cigarOpCode c) ++ encodeCigarAux [] cs

/-- Rust `encode_cigar`. -/
def encode_cigar (s : List Char) : List Nat := encodeCigarAux [] s

/-- Base → 4-bit code table of `encode_seq` (case-insensitive through
`to_ascii_uppercase`). -/
def baseCode (c : Char) : Nat :=
  match toAsciiUpper c with
  | '=' => 0 | 'A' => 1 | 'C' => 2 | 'M' => 3
  | 'G' => 4 | 'R' => 5 | 'S' => 6 | 'V' => 7
  | 'T' => 8 | 'W' => 9 | 'Y' => 10 | 'H' => 11
  | 'K' => 12 | 'D' => 13 | 'B' => 14 | 'N' => 15
  | _ => 15

/-- Loop of `encode_seq`: `i` is the char index, `byte` the partially filled
output byte; returns the pushed bytes and the final value of `byte`. -/
def encodeSeqAux (i byte : Nat) : List Char → List Nat × Nat
  | [] => ([], byte)
  | c :: cs =>
    let code := baseCode c
    if i % 2 = 0 then encodeSeqAux (i + 1) (code <<< 4) cs
    else
      let r := encodeSeqAux (i + 1) 0 cs
      ((byte ||| code) :: r.1, r.2)

/-- Rust `encode_seq`.  Note that the final push is guarded by the parity of
the UTF-8 byte length (`seq.len()`), while the loop walks chars. -/
def encode_seq (s : List Char) : List Nat :=
  let r := encodeSeqAux 0 0 s
  if (strBytes s).length % 2 ≠ 0 then r.1 ++ [r.2] else r.1

/-- Rust `encode_qual`: the literal `"*"` yields the single sentinel byte 0xFF,
otherwise each UTF-8 byte is decremented by 33 with saturation. -/
def encode_qual (q : List Char) : List Nat :=
  if q = ['*'] then [255] else (strBytes q).map (fun b => b - 33)

/-- Mandatory field `flag` (`fields[1].parse().unwrap_or(0)`). -/
def flagOf (fields : List (List Char)) : Nat := (parseU16 (fields.getD 1 [])).getD 0

/-- Mandatory field `pos` (`fields[3].parse().unwrap_or(1) - 1`). -/
def posOf (fields : List (List Char)) : Int := (parseI32 (fields.getD 3 [])).getD 1 - 1

/-- Mandatory field `mapq` (`fields[4].parse().unwrap_or(255)`). -/
def mapqOf (fields : List (List Char)) : Nat := (parseU8 (fields.getD 4 [])).getD 255

/-- Mandatory field `pnext` (`fields[7].parse().unwrap_or(1) - 1`). -/
def pnextOf (fields : List (List Char)) : Int := (parseI32 (fields.getD 7 [])).getD 1 - 1

/-- Mandatory field `tlen` (`fields[8].parse().unwrap_or(0)`). -/
def tlenOf (fields : List (List Char)) : Int := (parseI32 (fields.getD 8 [])).getD 0

/-- Field `n_cigar_op`: count of ASCII-alphabetic characters of the CIGAR
string (`cigar.matches(|c| c.is_ascii_alphabetic()).count()`). -/
def nCigarOpOf (cigar : List Char) : Nat := cigar.countP isAsciiAlpha

/-- Primary reference resolution:
`ref_names.iter().position(|r| r == rname).unwrap_or(0) as i32`. -/
def resolveTid (names : List (List Char)) (rname : List Char) : Int :=
  (((names.findIdx? (fun r => r == rname)).getD 0 : Nat) : Int)

/-- Mate reference resolution: `*` → −1, `=` → the primary tid, otherwise the
same dictionary lookup with fallback 0. -/
def nextTidOf (names : List (List Char)) (rnext : List Char) (tid : Int) : Int :=
  if rnext = ['*'] then -1
  else if rnext = ['='] then tid
  else resolveTid names rnext

/-- Encode one optional tag field.  `none` models the Rust panic on
`value.as_bytes()[0]` when an `A` tag has an empty value; otherwise the
appended bytes are returned together with the fields skipped with a diagnostic
(modelling the `eprintln!` calls). -/
def encodeTagField (f : List Char) : Option (List Nat × List (List Char)) :=
  let parts := splitn3 ':' f
  if parts.length ≠ 3 then some ([], [f])
  else
    let tag := parts.getD 0 []
    let ty := parts.getD 1 []
    let v := parts.getD 2 []
    if ty = ['A'] then
      match strBytes v with
      | [] => none
      | b :: _ => some (strBytes tag ++ [65, b], [])
    else if ty = ['i'] then
      match parseI32 v with
      | some n => some (strBytes tag ++ [105] ++ le32i n, [])
      | none => some ([], [f])
    else if ty = ['Z'] then some (strBytes tag ++ [90] ++ strBytes v ++ [0], [])
    else some ([], [f])

/-- The optional-tag loop over `fields[11..]`. -/
def encodeTags : List (List Char) → Option (List Nat × List (List Char))
  | [] => some ([], [])
  | f :: fs => do
    let p ← encodeTagField f
    let q ← encodeTags fs
    some (p.1 ++ q.1, p.2 ++ q.2)

/-- Encode one alignment record from its tab-separated fields (body of the
record loop).  Returns the record bytes (block-size prefix already backpatched,
which is equivalent to the two-pass reserve-then-overwrite of the source) and
the diagnostic-skipped tag fields; `none` models a panic. -/
def encodeFields (names : List (List Char)) (fields : List (List Char)) :
    Option (List Nat × List (List Char)) :=
  let qname := fields.getD 0 []
  let rname := fields.getD 2 []
  let cigar := fields.getD 5 []
  let rnext := fields.getD 6 []
  let seq := fields.getD 9 []
  let qual := fields.getD 10 []
  let tid := resolveTid names rname
  let lReadName := (strBytes qname).length + 1
  let nCigarOp := nCigarOpOf cigar
  let lSeq := (strBytes seq).length
  (encodeTags (fields.drop 11)).map fun p =>
    let body :=
      le32i tid ++ le32i (posOf fields) ++
      [lReadName % 256, mapqOf fields] ++
      le16 0 ++ le16 (nCigarOp % 65536) ++ le16 (flagOf fields) ++
      le32 (lSeq % 4294967296) ++
      le32i (nextTidOf names rnext tid) ++ le32i (pnextOf fields) ++
      le32i (tlenOf fields) ++
      strBytes qname ++ [0] ++
      encode_cigar cigar ++ encode_seq seq ++ encode_qual qual ++ p.1
    (le32 (body.length % 4294967296) ++ body, p.2)

/-- One iteration of the record loop: split on tabs and silently skip lines
with fewer than 11 fields. -/
def encodeRecordLine (names : List (List Char)) (line : List Char) : Option (List Nat) :=
  let fields := splitOnChar '\t' line
  if fields.length < 11 then some []
  else (encodeFields names fields).map (fun p => p.1)

/-- Rust `line.starts_with('@')`. -/
def isHeaderLine : List Char → Bool
  | '@' :: _ => true
  | _ => false

/-- Fold over the tab fields of an `@SQ` line extracting the `SN:`/`LN:`
values; each occurrence overwrites the previous one, and a failing `LN:` parse
overwrites with `none`. -/
def sqScan (fields : List (List Char)) : Option (List Char) × Option Nat :=
  fields.foldl
    (fun acc f =>
      if ['S', 'N', ':'].isPrefixOf f then (some (f.drop 3), acc.2)
      else if ['L', 'N', ':'].isPrefixOf f then (acc.1, parseU32 (f.drop 3))
      else acc)
    (none, none)

/-- Accumulated header text and reference dictionary. -/
structure HeaderSt where
  ht : List Nat
  names : List (List Char)
  lens : List Nat

/-- Header-line processing shared by the batch parse and the streaming model:
append the raw line plus a newline to the header text, and push an `@SQ`
name/length pair when both components are present. -/
def updHeader (st : HeaderSt) (line : List Char) : HeaderSt :=
  let ht := st.ht ++ strBytes line ++ [10]
  if ['@', 'S', 'Q'].isPrefixOf line then
    match sqScan (splitOnChar '\t' line) with
    | (some n, some l) => ⟨ht, st.names ++ [n], st.lens ++ [l]⟩
    | _ => ⟨ht, st.names, st.lens⟩
  else ⟨ht, st.names, st.lens⟩

/-- State of the input-reading loop. -/
structure ParseSt where
  hdr : HeaderSt
  recs : List (List Char)

/-- One line of the input-reading loop: header lines update the header state,
all other lines are collected as alignment records. -/
def step1 (st : ParseSt) (line : List Char) : ParseSt :=
  if isHeaderLine line then ⟨updHeader st.hdr line, st.recs⟩
  else ⟨st.hdr, st.recs ++ [line]⟩

/-- The whole input-reading pass. -/
def parseAll (lines : List (List Char)) : ParseSt :=
  lines.foldl step1 ⟨⟨[], [], []⟩, []⟩

/-- The literal `BAM\x01` magic. -/
def bamMagic : List Nat := [66, 65, 77, 1]

/-- Reference dictionary entry: `name_len(u32) | name bytes + NUL | ref_len(u32)`. -/
def refEntry (n : List Char) (l : Nat) : List Nat :=
  le32 ((strBytes n).length + 1) ++ strBytes n ++ [0] ++ le32 l

/-- Magic, header text block, and reference dictionary. -/
def preamble (h : HeaderSt) : List Nat :=
  bamMagic ++ le32 h.ht.length ++ h.ht ++ le32 h.names.length ++
  ((h.names.zip h.lens).map fun p => refEntry p.1 p.2).flatten

/-- The per-record loop, concatenating each record in input order; `none`
propagates a panic. -/
def encodeRecords (names : List (List Char)) : List (List Char) → Option (List Nat)
  | [] => some []
  | r :: rs => do
    let b ← encodeRecordLine names r
    let t ← encodeRecords names rs
    some (b ++ t)

/-- Byte stream the program feeds to the compressing sink: parse all lines
first, then write magic, header block, dictionary, and every record in input
order. -/
def mainOutput (lines : List (List Char)) : Option (List Nat) :=
  let st := parseAll lines
  (encodeRecords st.hdr.names st.recs).map (fun rb => preamble st.hdr ++ rb)

/-- State of the streaming reference process. -/
structure StreamSt where
  emitted : Bool
  hdr : HeaderSt
  out : List Nat

/-- Modelled from the spec: one step of the strictly streaming single-pass
process described in §5 (the repository has no streaming implementation; this
is the reference process of the claim).  Each alignment line is fully encoded
and written before the next line is read, the preamble is written exactly once
before the first record, and a record uses only the dictionary accumulated from
lines already read. -/
def streamStep (st : StreamSt) (line : List Char) : Option StreamSt :=
  if isHeaderLine line then some ⟨st.emitted, updHeader st.hdr line, st.out⟩
  else
    let st1 : StreamSt :=
      if st.emitted then st else ⟨true, st.hdr, st.out ++ preamble st.hdr⟩
    (encodeRecordLine st1.hdr.names line).map fun b => ⟨st1.emitted, st1.hdr, st1.out ++ b⟩

/-- Modelled from the spec: the complete streaming process; the preamble is
flushed at end of input when no alignment line occurred. -/
def streamOutput (lines : List (List Char)) : Option (List Nat) :=
  (lines.foldlM streamStep ⟨false, ⟨[], [], []⟩, []⟩).map fun st =>
    if st.emitted then st.out else st.out ++ preamble st.hdr

/-- Inverse of the fixed op-code table, for the decoding claims. -/
def cigarOpChar : Nat → Option Char
  | 0 => some 'M' | 1 => some 'I' | 2 => some 'D' | 3 => some 'N' | 4 => some 'S'
  | 5 => some 'H' | 6 => some 'P' | 7 => some '=' | 8 => some 'X' | _ => none

/-- Read a little-endian 32-bit word from the first four bytes. -/
def readLE32 : List Nat → Nat
  | b0 :: b1 :: b2 :: b3 :: _ => b0 + 256 * b1 + 65536 * b2 + 16777216 * b3
  | _ => 0

/-- Read the first two bytes as a little-endian 16-bit word. -/
def readLE16 : List Nat → Nat
  | b0 :: b1 :: _ => b0 + 256 * b1
  | _ => 0

/-- Decode a packed CIGAR byte stream back into (length, op-letter) pairs using
the fixed op-code table. -/
def decodeCigarWords : List Nat → Option (List (Nat × Char))
  | [] => some []
  | b0 :: b1 :: b2 :: b3 :: rest => do
    let w := b0 + 256 * b1 + 65536 * b2 + 16777216 * b3
    let c ← cigarOpChar (w &&& 15)
    let r ← decodeCigarWords rest
    some ((w >>> 4, c) :: r)
  | _ => none

/-- Render a list of (digit-string, op-letter) groups as a CIGAR string. -/
def renderCigar (gs : List (List Char × Char)) : List Char :=
  (gs.map fun g => g.1 ++ [g.2]).flatten

/-- The nine op letters of the fixed table. -/
def knownOps : List Char := ['M', 'I', 'D', 'N', 'S', 'H', 'P', '=', 'X']

/-- Nibble packing as the spec words it: pair nibbles high-first, a lone last
nibble is padded with a zero low nibble. -/
def packNibbles : List Nat → List Nat
  | [] => []
  | [a] => [a * 16]
  | a :: b :: rest => (a * 16 + b) :: packNibbles rest

/-- Signed readback of a little-endian 32-bit word. -/
def readLE32AsI32 (bs : List Nat) : Int :=
  let u := readLE32 bs
  if u < 2147483648 then (u : Int) else (u : Int) - 4294967296

/-! Helper lemmas. -/

theorem shiftLeft4_lor (a b : Nat) (hb : b < 16) : (a <<< 4) ||| b = 16 * a + b := by
  apply Nat.eq_of_testBit_eq
  intro i
  rw [Nat.testBit_lor]
  rcases Nat.lt_or_ge i 4 with hi | hi
  · have h1 : (a <<< 4).testBit i = false := by
      rw [Nat.testBit_shiftLeft]
      simp only [ge_iff_le, Bool.and_eq_false_iff, decide_eq_false_iff_not]
      left; omega
    rw [h1, Bool.false_or, Nat.testBit_to_div_mod, Nat.testBit_to_div_mod]
    have h0 : (16 * a + b) / 2 ^ i % 2 = b / 2 ^ i % 2 := by
      interval_cases i <;> omega
    rw [h0]
  · have h16 : (16 : Nat) ≤ 2 ^ i := by
      calc (16 : Nat) = 2 ^ 4 := rfl
        _ ≤ 2 ^ i := Nat.pow_le_pow_right (by norm_num) hi
    have h2 : b.testBit i = false := Nat.testBit_eq_false_of_lt (lt_of_lt_of_le hb h16)
    rw [h2, Bool.or_false, Nat.testBit_shiftLeft, Nat.testBit_to_div_mod, Nat.testBit_to_div_mod]
    have hd : decide (i ≥ 4) = true := by simp [hi]
    rw [hd, Bool.true_and]
    have h3 : (16 * a + b) / 2 ^ i = a / 2 ^ (i - 4) := by
      have he : 2 ^ i = 16 * 2 ^ (i - 4) := by
        rw [show (16 : Nat) = 2 ^ 4 from rfl, ← pow_add]
        congr 1; omega
      rw [he, Nat.mul_comm 16 a, ← Nat.div_div_eq_div_mul]
      have hq : (a * 16 + b) / 16 = a := by omega
      rw [hq]
    rw [h3]

theorem and_fifteen (a : Nat) : a &&& 15 = a % 16 := by
  apply Nat.eq_of_testBit_eq
  intro i
  rw [Nat.testBit_land, show (16 : Nat) = 2 ^ 4 from rfl, Nat.testBit_mod_two_pow]
  rcases Nat.lt_or_ge i 4 with hi | hi
  · have h1 : Nat.testBit 15 i = true := by interval_cases i <;> decide
    simp [h1, hi]
  · have h16 : (16 : Nat) ≤ 2 ^ i := by
      calc (16 : Nat) = 2 ^ 4 := rfl
        _ ≤ 2 ^ i := Nat.pow_le_pow_right (by norm_num) hi
    have h2 : Nat.testBit 15 i = false := Nat.testBit_eq_false_of_lt (by omega)
    simp [h2, show ¬i < 4 by omega]

theorem readLE32_le32_append (u : Nat) (rest : List Nat) :
    readLE32 (le32 u ++ rest) = u % 4294967296 := by
  simp only [le32, List.cons_append, List.nil_append, readLE32]
  omega

theorem readLE32_le32 (u : Nat) : readLE32 (le32 u) = u % 4294967296 := by
  simp only [le32, readLE32]
  omega

theorem le32_length (u : Nat) : (le32 u).length = 4 := rfl

theorem le32i_length (i : Int) : (le32i i).length = 4 := rfl

theorem le16_length (u : Nat) : (le16 u).length = 2 := rfl

theorem utf8Bytes_ascii {c : Char} (h : c.toNat < 128) : utf8Bytes c = [c.toNat] := by
  simp [utf8Bytes, h]

theorem strBytes_cons (c : Char) (cs : List Char) :
    strBytes (c :: cs) = utf8Bytes c ++ strBytes cs := by
  simp [strBytes]

theorem strBytes_ascii {s : List Char} (h : ∀ c ∈ s, c.toNat < 128) :
    strBytes s = s.map Char.toNat := by
  induction s with
  | nil => rfl
  | cons c cs ih =>
    rw [strBytes_cons, utf8Bytes_ascii (h c (by simp)), List.map_cons]
    rw [ih (fun d hd => h d (by simp [hd]))]
    rfl

theorem baseCode_lt (c : Char) : baseCode c < 16 := by
  unfold baseCode
  split <;> norm_num

/-- Induction on lists two elements at a time. -/
theorem twoStepInduction {α : Type} {P : List α → Prop} (h0 : P [])
    (h1 : ∀ a, P [a]) (h2 : ∀ a b l, P l → P (a :: b :: l)) : ∀ l, P l := by
  have key : ∀ (n : Nat) (l : List α), l.length ≤ n → P l := by
    intro n
    induction n with
    | zero =>
      intro l hl
      cases l with
      | nil => exact h0
      | cons a t => simp at hl
    | succ n ih =>
      intro l hl
      match l with
      | [] => exact h0
      | [a] => exact h1 a
      | a :: b :: t =>
        refine h2 a b t (ih t ?_)
        simp at hl
        omega
  exact fun l => key l.length l le_rfl

theorem encodeSeqAux_spec : ∀ (s : List Char) (i : Nat), i % 2 = 0 →
    (encodeSeqAux i 0 s).1 ++
      (if s.length % 2 = 1 then [(encodeSeqAux i 0 s).2] else []) =
    packNibbles (s.map baseCode) := by
  refine twoStepInduction ?_ ?_ ?_
  · intro i hi
    simp [encodeSeqAux, packNibbles]
  · intro a i hi
    have ha : encodeSeqAux i 0 [a] = ([], baseCode a <<< 4) := by
      simp [encodeSeqAux, hi]
    rw [ha]
    simp [packNibbles, Nat.shiftLeft_eq]
  · intro a b t ih i hi
    have hi1 : ¬(i + 1) % 2 = 0 := by omega
    have hi2 : (i + 2) % 2 = 0 := by omega
    simp only [encodeSeqAux, if_pos hi, if_neg hi1]
    have hlen : (a :: b :: t).length % 2 = t.length % 2 := by
      simp only [List.length_cons]
      omega
    rw [hlen, List.map_cons, List.map_cons, packNibbles, List.cons_append]
    rw [shiftLeft4_lor (baseCode a) (baseCode b) (baseCode_lt b), Nat.mul_comm 16 (baseCode a)]
    rw [ih (i + 2) hi2]

theorem packNibbles_length : ∀ xs : List Nat, (packNibbles xs).length = (xs.length + 1) / 2 := by
  refine twoStepInduction ?_ ?_ ?_
  · simp [packNibbles]
  · intro a; simp [packNibbles]
  · intro a b t ih
    simp [packNibbles, ih]
    omega

theorem packNibbles_odd : ∀ xs : List Nat, xs.length % 2 = 1 →
    ∃ r b, packNibbles xs = r ++ [b] ∧ b % 16 = 0 := by
  refine twoStepInduction ?_ ?_ ?_
  · intro h; simp at h
  · intro a h
    exact ⟨[], a * 16, rfl, by omega⟩
  · intro a b t ih h
    have ht : t.length % 2 = 1 := by simp [Nat.add_mod_right] at h; omega
    obtain ⟨r, b0, hr, hb0⟩ := ih ht
    exact ⟨(a * 16 + b) :: r, b0, by simp [packNibbles, hr], hb0⟩

/-! Claim theorems. -/

/-- C3 (counterexample): the claim quantifies over every sequence string, but
for the two-byte character U+00E9 the char loop leaves one pending nibble while
the even byte length suppresses the final push, so the packed output is empty
instead of having length ceil(1/2) = 1. -/
theorem c3_counterexample :
    encode_seq [Char.ofNat 233] = [] ∧
    (encode_seq [Char.ofNat 233]).length ≠ ([Char.ofNat 233].length + 1) / 2 := by
  constructor
  · rfl
  · decide

/-- C3 (amended: restricted to strings of single-byte, i.e. ASCII, characters):
the packed sequence maps each base through the fixed case-insensitive 4-bit
table, packs pairs high-nibble first, has length ceil(len/2), and an odd-length
input ends in a byte with zero low nibble. -/
theorem c3_seq_packing (s : List Char) (h : ∀ c ∈ s, c.toNat < 128) :
    encode_seq s = packNibbles (s.map baseCode) ∧
    (encode_seq s).length = (s.length + 1) / 2 ∧
    (s.length % 2 = 1 → ∃ r b, encode_seq s = r ++ [b] ∧ b % 16 = 0) := by
  have hb : (strBytes s).length = s.length := by
    rw [strBytes_ascii h, List.length_map]
  have hmain : encode_seq s = packNibbles (s.map baseCode) := by
    unfold encode_seq
    rw [hb]
    rcases Nat.mod_two_eq_zero_or_one s.length with hp | hp
    · have := encodeSeqAux_spec s 0 rfl
      rw [if_neg (by omega)] at this ⊢
      simpa using this
    · have := encodeSeqAux_spec s 0 rfl
      rw [if_pos (by omega)] at this
      rw [if_pos (by omega)]
      exact this
  refine ⟨hmain, ?_, ?_⟩
  · rw [hmain, packNibbles_length, List.length_map]
  · intro hp
    rw [hmain]
    exact packNibbles_odd (s.map baseCode) (by rw [List.length_map]; exact hp)

/-- C3 witness: concrete ASCII instance. -/
theorem c3_seq_packing_witness :
    encode_seq ['A', 'C', 'G'] = packNibbles (List.map baseCode ['A', 'C', 'G']) :=
  (c3_seq_packing ['A', 'C', 'G'] (by decide)).1

/-- C4 (counterexample): the claim quantifies over every quality string, but
the encoder walks UTF-8 bytes, so the single character U+00E9 yields two output
bytes rather than one byte per input character. -/
theorem c4_counterexample :
    encode_qual [Char.ofNat 233] = [162, 136] ∧
    (encode_qual [Char.ofNat 233]).length ≠ [Char.ofNat 233].length := by
  constructor
  · rfl
  · decide

/-- C4 (amended: the per-character clause restricted to ASCII quality strings;
in general the encoder emits one byte per UTF-8 byte): `"*"` always yields the
single sentinel byte 0xFF, and otherwise each character yields the byte
max(0, ascii(c) − 33), in order, one per character. -/
theorem c4_qual_encoding (q : List Char) :
    (q = ['*'] → encode_qual q = [255]) ∧
    ((∀ c ∈ q, c.toNat < 128) → q ≠ ['*'] →
      encode_qual q = q.map (fun c => c.toNat - 33)) := by
  constructor
  · intro h; subst h; rfl
  · intro hA hne
    unfold encode_qual
    rw [if_neg hne, strBytes_ascii hA, List.map_map]
    rfl

/-- C4 witness: both branches at concrete inputs. -/
theorem c4_qual_encoding_witness :
    encode_qual ['*'] = [255] ∧
    encode_qual ['F', 'F'] = List.map (fun c => c.toNat - 33) ['F', 'F'] :=
  ⟨(c4_qual_encoding ['*']).1 rfl,
   (c4_qual_encoding ['F', 'F']).2 (by decide) (by decide)⟩

theorem cigarOpCode_lt (c : Char) : cigarOpCode c < 16 := by
  unfold cigarOpCode
  split <;> norm_num

theorem knownOps_not_digit {c : Char} (h : c ∈ knownOps) : isAsciiDigit c = false := by
  simp only [knownOps, List.mem_cons, List.not_mem_nil, or_false] at h
  rcases h with rfl | rfl | rfl | rfl | rfl | rfl | rfl | rfl | rfl <;> decide

theorem cigarOpChar_cigarOpCode {c : Char} (h : c ∈ knownOps) :
    cigarOpChar (cigarOpCode c) = some c := by
  simp only [knownOps, List.mem_cons, List.not_mem_nil, or_false] at h
  rcases h with rfl | rfl | rfl | rfl | rfl | rfl | rfl | rfl | rfl <;> decide

theorem encodeCigarAux_digits (ds : List Char) (hd : ∀ c ∈ ds, isAsciiDigit c = true) :
    ∀ num rest : List Char, encodeCigarAux num (ds ++ rest) = encodeCigarAux (num ++ ds) rest := by
  induction ds with
  | nil => intro num rest; simp
  | cons d ds2 ih =>
    intro num rest
    have hdd : isAsciiDigit d = true := hd d (by simp)
    rw [List.cons_append]
    show encodeCigarAux num (d :: (ds2 ++ rest)) = _
    simp only [encodeCigarAux, hdd, if_pos]
    rw [ih (fun c hc => hd c (by simp [hc])) (num ++ [d]) rest]
    simp

theorem encodeCigarAux_emit (num : List Char) {c : Char} (hc : isAsciiDigit c = false)
    (rest : List Char) :
    encodeCigarAux num (c :: rest) =
      le32 ((((parseU32 num).getD 0 <<< 4) % 4294967296) ||| cigarOpCode c) ++
      encodeCigarAux [] rest := by
  simp [encodeCigarAux, hc]

theorem parseU32_digits_getD (ds : List Char) (hd : ∀ c ∈ ds, isAsciiDigit c = true)
    (hlt : digitsVal ds < 4294967296) : (parseU32 ds).getD 0 = digitsVal ds := by
  cases ds with
  | nil => rfl
  | cons d ds2 =>
    have hdp : d ≠ '+' := by
      intro he
      subst he
      have := hd '+' (by simp)
      simp [isAsciiDigit] at this
    have hsp : stripPlus (d :: ds2) = d :: ds2 := by simp [stripPlus, hdp]
    unfold parseU32 parseUnsigned
    rw [hsp]
    have hall : (d :: ds2).all isAsciiDigit = true := by
      rw [List.all_eq_true]
      exact hd
    unfold parseNatDigits
    rw [if_pos ⟨by simp, hall⟩]
    simp [hlt]

/-- C2 (counterexample): two failure modes of the round-trip as claimed over
all `<digits><letter>` strings.  The unknown letters Q and U encode to the same
word (op code 15 forgets the letter), and a length of 2^28 overflows
`length << 4` in 32 bits, making `268435456M` encode exactly like `M`. -/
theorem c2_counterexample :
    encode_cigar ['1', 'Q'] = encode_cigar ['1', 'U'] ∧
    encode_cigar ['2', '6', '8', '4', '3', '5', '4', '5', '6', 'M'] = encode_cigar ['M'] ∧
    ('Q' ≠ 'U' ∧ (268435456 : Nat) ≠ 0) := by
  exact ⟨rfl, rfl, by decide, by decide⟩

/-- C2 (amended: restricted to groups whose op letter is one of the nine known
letters M, I, D, N, S, H, P, =, X and whose length value is below 2^28): every
group becomes one little-endian 32-bit word `(length << 4) | op_code` from the
fixed table, decoding the word stream reconstructs the (length, op-letter)
sequence, and a missing length encodes that operation with length 0. -/
theorem c2_cigar_roundtrip (gs : List (List Char × Char))
    (h : ∀ g ∈ gs, (∀ d ∈ g.1, isAsciiDigit d = true) ∧
      digitsVal g.1 < 268435456 ∧ g.2 ∈ knownOps) :
    encode_cigar (renderCigar gs) =
      (gs.map fun g => le32 ((digitsVal g.1 <<< 4) ||| cigarOpCode g.2)).flatten ∧
    decodeCigarWords (encode_cigar (renderCigar gs)) =
      some (gs.map fun g => (digitsVal g.1, g.2)) ∧
    (∀ c : Char, isAsciiDigit c = false → encode_cigar [c] = le32 (cigarOpCode c)) := by
  have missing : ∀ c : Char, isAsciiDigit c = false → encode_cigar [c] = le32 (cigarOpCode c) := by
    intro c hc
    unfold encode_cigar
    rw [encodeCigarAux_emit [] hc []]
    have h0 : (((parseU32 []).getD 0 <<< 4) % 4294967296) ||| cigarOpCode c = cigarOpCode c := by
      have : (parseU32 []).getD 0 = 0 := rfl
      rw [this]
      simp
    rw [h0]
    simp [encodeCigarAux]
  have main : ∀ gs : List (List Char × Char),
      (∀ g ∈ gs, (∀ d ∈ g.1, isAsciiDigit d = true) ∧
        digitsVal g.1 < 268435456 ∧ g.2 ∈ knownOps) →
      encode_cigar (renderCigar gs) =
        (gs.map fun g => le32 ((digitsVal g.1 <<< 4) ||| cigarOpCode g.2)).flatten ∧
      decodeCigarWords (encode_cigar (renderCigar gs)) =
        some (gs.map fun g => (digitsVal g.1, g.2)) := by
    intro gs0
    induction gs0 with
    | nil => intro _; exact ⟨rfl, rfl⟩
    | cons g gs2 ih =>
      intro hh
      obtain ⟨hdig, hlt, hop⟩ := hh g (by simp)
      have ihgs := ih (fun g2 hg2 => hh g2 (by simp [hg2]))
      have hren : renderCigar (g :: gs2) = g.1 ++ (g.2 :: renderCigar gs2) := by
        simp [renderCigar]
      have hstep : encode_cigar (renderCigar (g :: gs2)) =
          le32 ((digitsVal g.1 <<< 4) ||| cigarOpCode g.2) ++ encode_cigar (renderCigar gs2) := by
        unfold encode_cigar
        rw [hren, encodeCigarAux_digits g.1 hdig [] (g.2 :: renderCigar gs2), List.nil_append]
        rw [encodeCigarAux_emit g.1 (knownOps_not_digit hop) (renderCigar gs2)]
        rw [parseU32_digits_getD g.1 hdig (by omega)]
        have hsm : (digitsVal g.1 <<< 4) % 4294967296 = digitsVal g.1 <<< 4 := by
          rw [Nat.shiftLeft_eq]
          apply Nat.mod_eq_of_lt
          omega
        rw [hsm]
      have hword : (digitsVal g.1 <<< 4) ||| cigarOpCode g.2 =
          16 * digitsVal g.1 + cigarOpCode g.2 :=
        shiftLeft4_lor _ _ (cigarOpCode_lt g.2)
      have hwlt : 16 * digitsVal g.1 + cigarOpCode g.2 < 4294967296 := by
        have := cigarOpCode_lt g.2
        omega
      refine ⟨?_, ?_⟩
      · rw [hstep, List.map_cons, List.flatten_cons, ihgs.1]
      · rw [hstep, hword]
        have hdec : decodeCigarWords (le32 (16 * digitsVal g.1 + cigarOpCode g.2) ++
            encode_cigar (renderCigar gs2)) =
            (cigarOpChar ((16 * digitsVal g.1 + cigarOpCode g.2) &&& 15)).bind fun c =>
              (decodeCigarWords (encode_cigar (renderCigar gs2))).bind fun r =>
                some (((16 * digitsVal g.1 + cigarOpCode g.2) >>> 4, c) :: r) := by
          simp only [le32, List.cons_append, List.nil_append, decodeCigarWords]
          have harith : (16 * digitsVal g.1 + cigarOpCode g.2) % 256 +
              256 * ((16 * digitsVal g.1 + cigarOpCode g.2) / 256 % 256) +
              65536 * ((16 * digitsVal g.1 + cigarOpCode g.2) / 65536 % 256) +
              16777216 * ((16 * digitsVal g.1 + cigarOpCode g.2) / 16777216 % 256) =
              16 * digitsVal g.1 + cigarOpCode g.2 := by
            omega
          rw [harith]
          rfl
        rw [hdec]
        have hand : (16 * digitsVal g.1 + cigarOpCode g.2) &&& 15 = cigarOpCode g.2 := by
          rw [and_fifteen]
          have := cigarOpCode_lt g.2
          omega
        have hshr : (16 * digitsVal g.1 + cigarOpCode g.2) >>> 4 = digitsVal g.1 := by
          rw [Nat.shiftRight_eq_div_pow]
          have := cigarOpCode_lt g.2
          omega
        rw [hand, hshr, cigarOpChar_cigarOpCode hop, ihgs.2]
        rfl
  exact ⟨(main gs h).1, (main gs h).2, missing⟩

/-- C2 witness: the concrete CIGAR `4M2S` round-trips. -/
theorem c2_cigar_roundtrip_witness :
    decodeCigarWords (encode_cigar (renderCigar [(['4'], 'M'), (['2'], 'S')])) =
      some [(4, 'M'), (2, 'S')] :=
  (c2_cigar_roundtrip [(['4'], 'M'), (['2'], 'S')] (by decide)).2.1

theorem digit_not_alpha {c : Char} (h : isAsciiDigit c = true) : isAsciiAlpha c = false := by
  simp only [isAsciiDigit, Bool.and_eq_true, decide_eq_true_eq] at h
  simp only [isAsciiAlpha, Bool.or_eq_false_iff, Bool.and_eq_false_iff,
    decide_eq_false_iff_not]
  omega

theorem encodeCigarAux_length (s : List Char) : ∀ num : List Char,
    (encodeCigarAux num s).length = 4 * s.countP (fun c => !isAsciiDigit c) := by
  induction s with
  | nil => intro num; simp [encodeCigarAux]
  | cons c cs ih =>
    intro num
    by_cases hc : isAsciiDigit c = true
    · simp [encodeCigarAux, hc, ih, List.countP_cons]
    · have hc0 : isAsciiDigit c = false := by
        cases hb : isAsciiDigit c
        · rfl
        · exact absurd hb hc
      rw [encodeCigarAux_emit num hc0 cs]
      simp [List.countP_cons, hc0, ih, le32_length]
      omega

theorem countP_alpha_iff (s : List Char) :
    s.countP isAsciiAlpha ≤ s.countP (fun c => !isAsciiDigit c) ∧
    (s.countP isAsciiAlpha = s.countP (fun c => !isAsciiDigit c) ↔
      ∀ c ∈ s, isAsciiDigit c = false → isAsciiAlpha c = true) := by
  induction s with
  | nil => simp
  | cons c cs ih =>
    rw [List.countP_cons, List.countP_cons]
    by_cases hd : isAsciiDigit c = true
    · have ha : isAsciiAlpha c = false := digit_not_alpha hd
      simp only [ha, hd, Bool.not_true, if_neg, Bool.false_eq_true, not_false_eq_true,
        Nat.add_zero, List.mem_cons]
      refine ⟨ih.1, ?_⟩
      rw [ih.2]
      constructor
      · intro hAll d hmem hdd
        rcases hmem with rfl | hmem
        · rw [hd] at hdd
          exact absurd hdd (by decide)
        · exact hAll d hmem hdd
      · intro hAll d hmem hdd
        exact hAll d (Or.inr hmem) hdd
    · have hd0 : isAsciiDigit c = false := by
        cases hb : isAsciiDigit c
        · rfl
        · exact absurd hb hd
      by_cases ha : isAsciiAlpha c = true
      · simp only [ha, hd0, Bool.not_false, if_pos, List.mem_cons]
        refine ⟨by omega, ?_⟩
        constructor
        · intro heq d hmem hdd
          rcases hmem with rfl | hmem
          · exact ha
          · exact (ih.2.mp (by omega)) d hmem hdd
        · intro hAll
          have : cs.countP isAsciiAlpha = cs.countP (fun c => !isAsciiDigit c) :=
            ih.2.mpr (fun d hmem hdd => hAll d (Or.inr hmem) hdd)
          omega
      · have ha0 : isAsciiAlpha c = false := by
          cases hb : isAsciiAlpha c
          · rfl
          · exact absurd hb ha
        simp only [ha0, hd0, Bool.not_false, Bool.false_eq_true, not_false_eq_true,
          if_neg, if_pos, Nat.add_zero, List.mem_cons]
        refine ⟨by omega, ?_⟩
        constructor
        · intro heq
          exact absurd heq (by omega)
        · intro hAll
          have := hAll c (Or.inl rfl) hd0
          rw [this] at ha0
          exact absurd ha0 (by decide)

/-- C10: the packed CIGAR buffer holds one 4-byte word per non-digit character,
while `n_cigar_op` counts only ASCII-alphabetic characters; the two agree
exactly when every non-digit character is alphabetic, and are strictly apart
on a concrete input containing `=`. -/
theorem c10_cigar_count :
    (∀ s : List Char,
      (encode_cigar s).length = 4 * s.countP (fun c => !isAsciiDigit c) ∧
      nCigarOpOf s ≤ s.countP (fun c => !isAsciiDigit c) ∧
      (nCigarOpOf s = s.countP (fun c => !isAsciiDigit c) ↔
        ∀ c ∈ s, isAsciiDigit c = false → isAsciiAlpha c = true)) ∧
    nCigarOpOf ['1', '='] < (encode_cigar ['1', '=']).length / 4 := by
  refine ⟨fun s => ⟨encodeCigarAux_length s [], (countP_alpha_iff s).1, (countP_alpha_iff s).2⟩, ?_⟩
  decide

/-- C10 witness: concrete instances of both parts. -/
theorem c10_cigar_count_witness :
    (encode_cigar ['4', 'M']).length = 4 * List.countP (fun c => !isAsciiDigit c) ['4', 'M'] ∧
    nCigarOpOf ['1', '='] < (encode_cigar ['1', '=']).length / 4 :=
  ⟨(c10_cigar_count.1 ['4', 'M']).1, c10_cigar_count.2⟩

/-- C5 (counterexample): the claim says the wildcard `*` always falls back to
index 0, but the code gives the primary reference no wildcard treatment: with a
dictionary that literally declares a reference named `*` at index 1, lookup
resolves `*` to 1. -/
theorem c5_counterexample :
    resolveTid [['c', 'h', 'r', '1'], ['*']] ['*'] = 1 ∧ (1 : Int) ≠ 0 := by
  constructor
  · rfl
  · decide

/-- C5 (amended: the primary refID is resolved by exact name match with
fallback 0 when the name does not occur in the dictionary — in particular the
wildcard `*` falls back to 0 whenever `*` is not itself a declared reference
name, even for an empty dictionary; the mate reference is −1 for `*`, the
primary refID for `=`, and the same lookup-with-fallback otherwise). -/
theorem c5_ref_resolution :
    (∀ (names : List (List Char)) (rname : List Char) (i : Nat),
      names.findIdx? (fun r => r == rname) = some i → resolveTid names rname = i) ∧
    (∀ (names : List (List Char)) (rname : List Char),
      names.findIdx? (fun r => r == rname) = none → resolveTid names rname = 0) ∧
    (∀ names : List (List Char),
      names.findIdx? (fun r => r == ['*']) = none → resolveTid names ['*'] = 0) ∧
    resolveTid [] ['*'] = 0 ∧
    (∀ (names : List (List Char)) (tid : Int), nextTidOf names ['*'] tid = -1) ∧
    (∀ (names : List (List Char)) (tid : Int), nextTidOf names ['='] tid = tid) ∧
    (∀ (names : List (List Char)) (rnext : List Char) (tid : Int),
      rnext ≠ ['*'] → rnext ≠ ['='] → nextTidOf names rnext tid = resolveTid names rnext) := by
  refine ⟨?_, ?_, ?_, rfl, ?_, ?_, ?_⟩
  · intro names rname i h
    unfold resolveTid
    rw [h]
    rfl
  · intro names rname h
    unfold resolveTid
    rw [h]
    rfl
  · intro names h
    unfold resolveTid
    rw [h]
    rfl
  · intro names tid
    rfl
  · intro names tid
    rfl
  · intro names rnext tid h1 h2
    unfold nextTidOf
    rw [if_neg h1, if_neg h2]

/-- C5 witness: concrete instances of match, fallback and the three mate
cases. -/
theorem c5_ref_resolution_witness :
    resolveTid [['c', 'h', 'r', '1'], ['c', 'h', 'r', '2']] ['c', 'h', 'r', '2'] = 2 - 1 ∧
    resolveTid [['c', 'h', 'r', '1']] ['c', 'h', 'r', '9'] = 0 ∧
    nextTidOf [] ['*'] 7 = -1 ∧
    nextTidOf [] ['='] 7 = 7 ∧
    nextTidOf [['a']] ['a'] 7 = resolveTid [['a']] ['a'] :=
  ⟨c5_ref_resolution.1 [['c', 'h', 'r', '1'], ['c', 'h', 'r', '2']] ['c', 'h', 'r', '2'] 1
      (by decide),
   c5_ref_resolution.2.1 [['c', 'h', 'r', '1']] ['c', 'h', 'r', '9'] (by decide),
   c5_ref_resolution.2.2.2.2.1 [] 7,
   c5_ref_resolution.2.2.2.2.2.1 [] 7,
   c5_ref_resolution.2.2.2.2.2.2 [['a']] ['a'] 7 (by decide) (by decide)⟩

theorem encodeFields_shape (names fields : List (List Char)) (rec : List Nat)
    (ds : List (List Char)) (h : encodeFields names fields = some (rec, ds)) :
    ∃ body : List Nat, rec = le32 (body.length % 4294967296) ++ body := by
  unfold encodeFields at h
  cases ht : encodeTags (fields.drop 11) with
  | none =>
    rw [ht] at h
    simp at h
  | some p =>
    rw [ht] at h
    simp only [Option.map, Option.some.injEq, Prod.mk.injEq] at h
    exact ⟨_, h.1.symm⟩

/-- C1: every emitted record starts with a 4-byte little-endian block size that
equals the record's total byte length minus 4 (as a u32), i.e. the backpatched
placeholder is consistent for every line with at least 11 fields. -/
theorem c1_block_size (names : List (List Char)) (line : List Char) (rec : List Nat)
    (h11 : 11 ≤ (splitOnChar '\t' line).length)
    (henc : encodeRecordLine names line = some rec) :
    4 ≤ rec.length ∧ readLE32 rec = (rec.length - 4) % 4294967296 := by
  unfold encodeRecordLine at henc
  rw [if_neg (by omega)] at henc
  cases hef : encodeFields names (splitOnChar '\t' line) with
  | none =>
    rw [hef] at henc
    simp at henc
  | some p =>
    rw [hef] at henc
    simp only [Option.map, Option.some.injEq] at henc
    obtain ⟨body, hb⟩ := encodeFields_shape names (splitOnChar '\t' line) p.1 p.2
      (by rw [hef])
    rw [← henc, hb]
    constructor
    · simp [le32_length]
    · rw [readLE32_le32_append]
      simp only [List.length_append, le32_length]
      omega

/-- Concrete 11-field alignment line for the C1 witness. -/
def line0 : List Char :=
  ['r', '\t', '0', '\t', '*', '\t', '1', '\t', '0', '\t', '*', '\t', '*', '\t',
   '1', '\t', '0', '\t', 'A', '\t', 'F']

/-- Record encoded from `line0`. -/
def rec0 : List Nat := (encodeRecordLine [] line0).getD []

/-- C1 witness: the block size of a concrete record. -/
theorem c1_block_size_witness :
    encodeRecordLine [] line0 = some rec0 ∧
    readLE32 rec0 = (rec0.length - 4) % 4294967296 :=
  ⟨rfl, (c1_block_size [] line0 rec0 (by decide) rfl).2⟩

/-- C7: numeric parse failures on the mandatory fields substitute the sentinel
defaults instead of failing the record: flag 0, mapq 255, tlen 0, and pos/pnext
default to 1 before the uniform −1 conversion, so a non-numeric position is
encoded as the four zero bytes of 0; and a record is still emitted. -/
theorem c7_sentinel_defaults (fields : List (List Char)) (_h11 : 11 ≤ fields.length) :
    (parseU16 (fields.getD 1 []) = none → flagOf fields = 0) ∧
    (parseU8 (fields.getD 4 []) = none → mapqOf fields = 255) ∧
    (parseI32 (fields.getD 8 []) = none → tlenOf fields = 0) ∧
    (parseI32 (fields.getD 3 []) = none →
      posOf fields = 0 ∧ le32i (posOf fields) = [0, 0, 0, 0]) ∧
    (parseI32 (fields.getD 7 []) = none →
      pnextOf fields = 0 ∧ le32i (pnextOf fields) = [0, 0, 0, 0]) ∧
    (∀ (names : List (List Char)) (p : List Nat × List (List Char)),
      encodeTags (fields.drop 11) = some p →
      ∃ rec ds, encodeFields names fields = some (rec, ds)) := by
  refine ⟨?_, ?_, ?_, ?_, ?_, ?_⟩
  · intro h
    unfold flagOf
    rw [h]
    rfl
  · intro h
    unfold mapqOf
    rw [h]
    rfl
  · intro h
    unfold tlenOf
    rw [h]
    rfl
  · intro h
    have hp : posOf fields = 0 := by
      unfold posOf
      rw [h]
      rfl
    exact ⟨hp, by rw [hp]; rfl⟩
  · intro h
    have hp : pnextOf fields = 0 := by
      unfold pnextOf
      rw [h]
      rfl
    exact ⟨hp, by rw [hp]; rfl⟩
  · intro names p hp
    unfold encodeFields
    rw [hp]
    exact ⟨_, _, rfl⟩

/-- Concrete fields with non-numeric flag, pos, mapq, pnext and tlen. -/
def fs7 : List (List Char) :=
  [['q'], ['x'], ['*'], ['x'], ['x'], ['*'], ['*'], ['x'], ['x'], ['A'], ['F']]

/-- C7 witness: all sentinel defaults at a concrete malformed record. -/
theorem c7_sentinel_defaults_witness :
    flagOf fs7 = 0 ∧ mapqOf fs7 = 255 ∧ tlenOf fs7 = 0 ∧
    posOf fs7 = 0 ∧ pnextOf fs7 = 0 :=
  ⟨(c7_sentinel_defaults fs7 (by decide)).1 (by decide),
   (c7_sentinel_defaults fs7 (by decide)).2.1 (by decide),
   (c7_sentinel_defaults fs7 (by decide)).2.2.1 (by decide),
   ((c7_sentinel_defaults fs7 (by decide)).2.2.2.1 (by decide)).1,
   ((c7_sentinel_defaults fs7 (by decide)).2.2.2.2.1 (by decide)).1⟩

theorem parseI32_range {v : List Char} {n : Int} (h : parseI32 v = some n) :
    -2147483648 ≤ n ∧ n < 2147483648 := by
  unfold parseI32 at h
  split at h <;>
    · split at h
      · split at h
        · simp only [Option.some.injEq] at h
          omega
        · simp at h
      · simp at h

theorem readLE32AsI32_le32i {n : Int} (h1 : -2147483648 ≤ n) (h2 : n < 2147483648) :
    readLE32AsI32 (le32i n) = n := by
  unfold readLE32AsI32 le32i
  rw [readLE32_le32]
  have hn0 : (0 : Int) ≤ n % 4294967296 := Int.emod_nonneg n (by norm_num)
  have hn1 : n % 4294967296 < 4294967296 := Int.emod_lt_of_pos n (by norm_num)
  have hmod : (n % 4294967296).toNat % 4294967296 = (n % 4294967296).toNat := by omega
  rw [hmod]
  show (if (n % 4294967296).toNat < 2147483648 then ((n % 4294967296).toNat : Int)
    else ((n % 4294967296).toNat : Int) - 4294967296) = n
  split <;> omega

/-- C8: an integer tag that splits into three parts either appends exactly the
tag bytes, the type byte `i` and the four little-endian value bytes — which
read back to the original integer — or, when the value does not parse, leaves
the buffer untouched and records the field as a diagnostic. -/
theorem c8_int_tag (f t v : List Char) (hsplit : splitn3 ':' f = [t, ['i'], v]) :
    (∀ n : Int, parseI32 v = some n →
      encodeTagField f = some (strBytes t ++ [105] ++ le32i n, []) ∧
      readLE32AsI32 (le32i n) = n) ∧
    (parseI32 v = none → encodeTagField f = some ([], [f])) := by
  constructor
  · intro n hn
    refine ⟨?_, ?_⟩
    · unfold encodeTagField
      rw [hsplit]
      simp [hn]
    · have hr := parseI32_range hn
      exact readLE32AsI32_le32i hr.1 hr.2
  · intro hn
    unfold encodeTagField
    rw [hsplit]
    simp [hn]

/-- C8 witness: `NM:i:5` encodes to the tag bytes plus little-endian 5 and
reads back as 5. -/
theorem c8_int_tag_witness :
    encodeTagField ['N', 'M', ':', 'i', ':', '5'] =
      some (strBytes ['N', 'M'] ++ [105] ++ le32i 5, []) ∧
    readLE32AsI32 (le32i 5) = 5 :=
  (c8_int_tag ['N', 'M', ':', 'i', ':', '5'] ['N', 'M'] ['5'] (by decide)).1 5 (by decide)

/-- C9 (code bug): an `A` tag with an empty value makes the encoder index
`value.as_bytes()[0]` out of bounds — the program panics (modelled by `none`)
instead of the claimed always-successful first-byte access; a nonempty value
behaves as claimed. -/
theorem c9_empty_a_tag_panics :
    encodeTagField ['X', 'X', ':', 'A', ':'] = none ∧
    encodeFields []
      [['q'], ['0'], ['*'], ['1'], ['0'], ['*'], ['*'], ['1'], ['0'], ['A'], ['F'],
       ['X', 'X', ':', 'A', ':']] = none ∧
    encodeTagField ['X', 'X', ':', 'A', ':', 'v'] = some ([88, 88, 65, 118], []) := by
  exact ⟨rfl, rfl, rfl⟩

theorem foldl_step1_nonheaders (as : List (List Char))
    (ha : ∀ l ∈ as, isHeaderLine l = false) :
    ∀ st : ParseSt, as.foldl step1 st = ⟨st.hdr, st.recs ++ as⟩ := by
  induction as with
  | nil =>
    intro st
    cases st
    simp
  | cons a as2 ih =>
    intro st
    rw [List.foldl_cons]
    have h1 : step1 st a = ⟨st.hdr, st.recs ++ [a]⟩ := by
      unfold step1
      rw [if_neg (by simp [ha a (by simp)])]
    rw [h1, ih (fun l hl => ha l (by simp [hl]))]
    simp

theorem foldl_step1_headers (hs : List (List Char))
    (hh : ∀ l ∈ hs, isHeaderLine l = true) :
    ∀ st : ParseSt, hs.foldl step1 st = ⟨hs.foldl updHeader st.hdr, st.recs⟩ := by
  induction hs with
  | nil =>
    intro st
    cases st
    simp
  | cons a hs2 ih =>
    intro st
    rw [List.foldl_cons, List.foldl_cons]
    have h1 : step1 st a = ⟨updHeader st.hdr a, st.recs⟩ := by
      unfold step1
      rw [if_pos (hh a (by simp))]
    rw [h1, ih (fun l hl => hh l (by simp [hl]))]

theorem foldlM_streamStep_headers (hs : List (List Char))
    (hh : ∀ l ∈ hs, isHeaderLine l = true) :
    ∀ st : StreamSt,
      hs.foldlM streamStep st = some ⟨st.emitted, hs.foldl updHeader st.hdr, st.out⟩ := by
  induction hs with
  | nil =>
    intro st
    cases st
    rfl
  | cons a hs2 ih =>
    intro st
    rw [List.foldlM_cons, List.foldl_cons]
    have h1 : streamStep st a = some ⟨st.emitted, updHeader st.hdr a, st.out⟩ := by
      unfold streamStep
      rw [if_pos (hh a (by simp))]
    rw [h1]
    show hs2.foldlM streamStep ⟨st.emitted, updHeader st.hdr a, st.out⟩ = _
    rw [ih (fun l hl => hh l (by simp [hl]))]

theorem foldlM_streamStep_records (as : List (List Char))
    (ha : ∀ l ∈ as, isHeaderLine l = false) :
    ∀ (h : HeaderSt) (out : List Nat),
      as.foldlM streamStep ⟨true, h, out⟩ =
        (encodeRecords h.names as).map fun rb => (⟨true, h, out ++ rb⟩ : StreamSt) := by
  induction as with
  | nil =>
    intro h out
    simp [encodeRecords, List.foldlM_nil]
  | cons a as2 ih =>
    intro h out
    rw [List.foldlM_cons]
    have ha1 : isHeaderLine a = false := ha a (by simp)
    cases hb : encodeRecordLine h.names a with
    | none =>
      have h1 : streamStep ⟨true, h, out⟩ a = none := by
        unfold streamStep
        rw [if_neg (by simp [ha1])]
        simp [hb]
      have h2 : encodeRecords h.names (a :: as2) = none := by
        unfold encodeRecords
        rw [hb]
        rfl
      rw [h1, h2]
      rfl
    | some b =>
      have h1 : streamStep ⟨true, h, out⟩ a = some ⟨true, h, out ++ b⟩ := by
        unfold streamStep
        rw [if_neg (by simp [ha1])]
        simp [hb]
      rw [h1]
      show as2.foldlM streamStep ⟨true, h, out ++ b⟩ = _
      rw [ih (fun l hl => ha l (by simp [hl])) h (out ++ b)]
      have h2 : encodeRecords h.names (a :: as2) =
          (encodeRecords h.names as2).map fun t => b ++ t := by
        have e1 : encodeRecords h.names (a :: as2) =
            encodeRecordLine h.names a >>= fun b2 =>
              encodeRecords h.names as2 >>= fun t => some (b2 ++ t) := rfl
        rw [e1, hb]
        simp only [Option.bind_eq_bind, Option.some_bind]
        cases hr : encodeRecords h.names as2 <;> rfl
      rw [h2]
      cases hr : encodeRecords h.names as2 <;> simp

/-- Alignment line `r 0 chr2 1 0 * * 0 0 * *` (tab-separated). -/
def alnLine : List Char :=
  ['r', '\t', '0', '\t', 'c', 'h', 'r', '2', '\t', '1', '\t', '0', '\t', '*', '\t',
   '*', '\t', '0', '\t', '0', '\t', '*', '\t', '*']

/-- Header line `@SQ SN:chr1 LN:5`. -/
def sqLine1 : List Char :=
  ['@', 'S', 'Q', '\t', 'S', 'N', ':', 'c', 'h', 'r', '1', '\t', 'L', 'N', ':', '5']

/-- Header line `@SQ SN:chr2 LN:5`. -/
def sqLine2 : List Char :=
  ['@', 'S', 'Q', '\t', 'S', 'N', ':', 'c', 'h', 'r', '2', '\t', 'L', 'N', ':', '5']

/-- C6 (counterexample): when `@SQ` header lines follow an alignment line, the
batch program resolves the record against the dictionary built from the whole
file (and emits the full header text), while the claimed streaming process has
already written the record using only the lines read before it — the two
outputs differ on this concrete input. -/
theorem c6_counterexample :
    mainOutput [alnLine, sqLine1, sqLine2] ≠ streamOutput [alnLine, sqLine1, sqLine2] := by
  decide

/-- C6 (amended: restricted to inputs whose header lines all precede the
alignment lines, the normal SAM shape): the batch program's output stream is
identical to that of the strictly streaming one-pass process that encodes and
writes each alignment line before reading the next line, emits the preamble
exactly once, and never reorders or buffers records.  Without that restriction
the equivalence fails because the program builds the reference dictionary and
header text from the entire file before emitting anything. -/
theorem c6_streaming_equiv (hs as : List (List Char))
    (hh : ∀ l ∈ hs, isHeaderLine l = true) (ha : ∀ l ∈ as, isHeaderLine l = false) :
    mainOutput (hs ++ as) = streamOutput (hs ++ as) := by
  have hparse : parseAll (hs ++ as) = ⟨hs.foldl updHeader ⟨[], [], []⟩, as⟩ := by
    unfold parseAll
    rw [List.foldl_append, foldl_step1_headers hs hh ⟨⟨[], [], []⟩, []⟩,
      foldl_step1_nonheaders as ha ⟨hs.foldl updHeader ⟨[], [], []⟩, []⟩]
    simp
  have hmain : mainOutput (hs ++ as) =
      (encodeRecords (hs.foldl updHeader ⟨[], [], []⟩).names as).map
        (fun rb => preamble (hs.foldl updHeader ⟨[], [], []⟩) ++ rb) := by
    unfold mainOutput
    rw [hparse]
  rw [hmain]
  unfold streamOutput
  rw [List.foldlM_append, foldlM_streamStep_headers hs hh ⟨false, ⟨[], [], []⟩, []⟩]
  set H := hs.foldl updHeader ⟨[], [], []⟩ with hHdef
  cases as with
  | nil =>
    show (encodeRecords H.names []).map (fun rb => preamble H ++ rb) =
      ((some (⟨false, H, []⟩ : StreamSt) >>= fun st2 => List.foldlM streamStep st2 []).map
        fun st => if st.emitted then st.out else st.out ++ preamble st.hdr)
    simp [encodeRecords]
  | cons a as2 =>
    have ha1 : isHeaderLine a = false := ha a (by simp)
    show (encodeRecords H.names (a :: as2)).map (fun rb => preamble H ++ rb) =
      ((some (⟨false, H, []⟩ : StreamSt) >>= fun st2 =>
        List.foldlM streamStep st2 (a :: as2)).map
        fun st => if st.emitted then st.out else st.out ++ preamble st.hdr)
    simp only [Option.bind_eq_bind, Option.some_bind]
    rw [List.foldlM_cons]
    have hstep : streamStep ⟨false, H, []⟩ a =
        (encodeRecordLine H.names a).map
          fun b => (⟨true, H, ([] : List Nat) ++ preamble H ++ b⟩ : StreamSt) := by
      unfold streamStep
      rw [if_neg (by simp [ha1])]
      rfl
    rw [hstep]
    cases hb : encodeRecordLine H.names a with
    | none =>
      have h2 : encodeRecords H.names (a :: as2) = none := by
        unfold encodeRecords
        rw [hb]
        rfl
      rw [h2]
      rfl
    | some b =>
      have h2 : encodeRecords H.names (a :: as2) =
          (encodeRecords H.names as2).map fun t => b ++ t := by
        have e1 : encodeRecords H.names (a :: as2) =
            encodeRecordLine H.names a >>= fun b2 =>
              encodeRecords H.names as2 >>= fun t => some (b2 ++ t) := rfl
        rw [e1, hb]
        simp only [Option.bind_eq_bind, Option.some_bind]
        cases hr : encodeRecords H.names as2 <;> rfl
      rw [h2]
      show _ = ((some (⟨true, H, [] ++ preamble H ++ b⟩ : StreamSt) >>= fun st2 =>
        List.foldlM streamStep st2 as2).map
        fun st => if st.emitted then st.out else st.out ++ preamble st.hdr)
      simp only [Option.bind_eq_bind, Option.some_bind]
      rw [foldlM_streamStep_records as2 (fun l hl => ha l (by simp [hl])) H
          ([] ++ preamble H ++ b)]
      cases hr : encodeRecords H.names as2 <;> simp

/-- C6 witness: a concrete headers-first input where the batch output equals
the streaming output. -/
theorem c6_streaming_equiv_witness :
    mainOutput ([sqLine1, sqLine2] ++ [alnLine]) =
      streamOutput ([sqLine1, sqLine2] ++ [alnLine]) :=
  c6_streaming_equiv [sqLine1, sqLine2] [alnLine] (by decide) (by decide)

end SamToBam
